import Mathlib

/-!
Shallow embedding of `src/boomer/print.go` (package `boomer`), the
load-test result aggregator, together with proofs about its claims.

Modelling conventions:
* Go `float64` values are modelled as `ℚ`.  Division is modelled by
  `fdiv`, which returns `none` when the divisor is `0` (in Go such a
  division yields a non-finite value, `NaN` or `±Inf`); accordingly the
  `RPS` and `Average` fields are `Option ℚ`, with `none` standing for a
  non-finite float.
* The buffered result channel drained by `finalize` is modelled by the
  list of records that are queued at the time of the call, drained in
  order.
* Go maps (`statusCodeDist`, `errorDist`) are modelled by the list of
  inserted keys (a multiset: the map value for a key is its count in the
  list).  Go map iteration order is unspecified; the model iterates in
  first-appearance order (`List.dedup`).  All claims about the
  distributions are order-insensitive (set equality), so the choice of
  order is immaterial.
* The histogram scan of `printHistogram` is a `for` loop that advances
  either the latency index or the bucket cursor; when neither advances
  the Go loop runs forever.  The model (`histLoop`) returns `none` for
  such a non-terminating execution (and is fuelled; the fuel supplied by
  `printHistogramBlock` is large enough for every terminating run).
-/

namespace Boomer

/-- Division on `ℚ` modelling Go `float64` division: `none` stands for a
non-finite result (`NaN` or `±Inf`), produced exactly when the divisor
is zero. -/
def fdiv (a b : ℚ) : Option ℚ := if b = 0 then none else some (a / b)

/-- One outcome record (`*result` in the Go source): `err` is present iff
the request failed; `duration` is the latency in seconds
(`res.duration.Seconds()`). -/
structure result where
  err : Option String
  duration : ℚ
  statusCode : Int
  contentLength : Int
deriving DecidableEq, Repr

/-- Entry of the percentile list (`Percential` in the Go source, field
names kept verbatim). -/
structure Percential where
  Percent : Nat
  Count : ℚ
deriving DecidableEq, Repr

/-- Entry of the histogram (`Bucket` in the Go source). -/
structure Bucket where
  Bucket : ℚ
  Count : Nat
deriving DecidableEq, Repr

/-- Entry of the status-code distribution (`StatusCode` in the Go
source). -/
structure StatusCode where
  Code : Int
  Count : Nat
deriving DecidableEq, Repr

/-- Entry of the error distribution (`Error` in the Go source). -/
structure Error where
  Error : String
  Count : Nat
deriving DecidableEq, Repr

/-- The `Report` struct of the Go source.  `RPS` and `Average` are
`Option ℚ` (`none` = non-finite float); `statusCodeDist` and `errorDist`
are the multiset models of the Go maps; `total` is the run duration in
seconds (`r.total.Seconds()`). -/
structure Report where
  AvgTotal : ℚ := 0
  Fastest : ℚ := 0
  Slowest : ℚ := 0
  Average : Option ℚ := some 0
  RPS : Option ℚ := some 0
  TotalDuration : Int := 0
  Errors : List Error := []
  StatusCodes : List StatusCode := []
  Percentiales : List Percential := []
  Histogram : List Bucket := []
  Lats : List ℚ := []
  SizeTotal : Int := 0
  errorDist : List String := []
  statusCodeDist : List Int := []
  total : ℚ := 0
deriving DecidableEq, Repr

/-- Mirrors `newReport`: a fresh report with empty accumulators holding
the total run duration (the channel itself is passed to `finalize` in
this model, and the `output` string is ignored by all modelled code). -/
def newReport (total : ℚ) : Report := { total := total }

/-- One step of the drain loop in `finalize` (the `case res := <-r.results`
branch): an error record feeds the error map, a success record feeds the
latency list, latency sum, status-code map and byte total. -/
def Report.drain (r : Report) (res : result) : Report :=
  match res.err with
  | some e => { r with errorDist := r.errorDist ++ [e] }
  | none =>
    { r with
      Lats := r.Lats ++ [res.duration * 1000],
      AvgTotal := r.AvgTotal + res.duration,
      statusCodeDist := r.statusCodeDist ++ [res.statusCode],
      SizeTotal :=
        if 0 < res.contentLength then r.SizeTotal + res.contentLength
        else r.SizeTotal }

/-- The target percentiles of `printLatencies`. -/
def pctls : List Nat := [10, 25, 50, 75, 90, 95, 99]

/-- The 0-based rank of index `i` in a list of `n` latencies: `i * 100 / n`
with integer (floor) division, as in `current := i * 100 / len(r.Lats)`. -/
def rank (n i : Nat) : Nat := i * 100 / n

/-- The scanning loop of `printLatencies`: `n` is `len(r.Lats)`, `i` the
current index, the second list the remaining latencies, the third the
remaining targets.  Whenever `i*100/n >= pctls[j]` the latency at `i` is
recorded for the current target and the target cursor advances (this is
`data[j] = r.Lats[i]; j++` in the source); the loop stops when either
list is exhausted.  The returned pairs are the filled `data` slots with
their targets, in target order. -/
def pctlLoop (n : Nat) : Nat → List ℚ → List Nat → List (Nat × ℚ)
  | _, [], _ => []
  | _, _ :: _, [] => []
  | i, x :: rest, p :: ps =>
    if p ≤ rank n i then (p, x) :: pctlLoop n (i + 1) rest ps
    else pctlLoop n (i + 1) rest (p :: ps)

/-- The percentile entries appended by `printLatencies`: the filled
`data` slots, keeping only strictly positive values (`if data[i] > 0`
in the source). -/
def printLatenciesBlock (lats : List ℚ) : List Percential :=
  (pctlLoop lats.length 0 lats pctls).filterMap
    (fun pv => if 0 < pv.2 then some ⟨pv.1, pv.2⟩ else none)

/-- Increment the counter at a given index (`counts[bi]++`). -/
def incAt : List Nat → Nat → List Nat
  | [], _ => []
  | c :: cs, 0 => (c + 1) :: cs
  | c :: cs, n + 1 => c :: incAt cs n

/-- The bucket boundaries of `printHistogram`: `buckets[i] = Fastest +
bs*i` for `i < 10` and `buckets[10] = Slowest`, where `bs = (Slowest -
Fastest) / 10`. -/
def histBuckets (fastest slowest : ℚ) : List ℚ :=
  (List.range 10).map (fun i : ℕ => fastest + (slowest - fastest) / 10 * (i : ℚ))
    ++ [slowest]

/-- The counting loop of `printHistogram`.  Each iteration either counts
the current latency into the current bucket (`i++; counts[bi]++`) or
advances the bucket cursor (`bi++`, only while `bi < len(buckets)-1`).
When the current latency exceeds the last boundary and the cursor is
already at the last bucket, the Go loop makes no progress and runs
forever; the model returns `none` for that execution (as it does when
the fuel runs out, which cannot happen for the fuel supplied by
`printHistogramBlock`). -/
def histLoop (buckets : List ℚ) : Nat → List ℚ → Nat → List Nat → Option (List Nat)
  | 0, _, _, _ => none
  | _ + 1, [], _, counts => some counts
  | fuel + 1, x :: rest, bi, counts =>
    if x ≤ buckets.getD bi 0 then histLoop buckets fuel rest bi (incAt counts bi)
    else if bi < buckets.length - 1 then
      histLoop buckets fuel (x :: rest) (bi + 1) counts
    else none

/-- The histogram entries appended by `printHistogram`: run the counting
loop from bucket `0` with all counters `0`, then pair each boundary with
its count.  `none` models the non-terminating execution of the Go loop. -/
def printHistogramBlock (fastest slowest : ℚ) (lats : List ℚ) : Option (List Bucket) :=
  let buckets := histBuckets fastest slowest
  (histLoop buckets (lats.length + buckets.length + 1) lats 0
      (List.replicate buckets.length 0)).map
    (fun counts => (buckets.zip counts).map (fun bc => ⟨bc.1, bc.2⟩))

/-- The status-code entries appended by one call of `printStatusCodes`:
one entry per distinct key of the map, paired with its count. -/
def statusBlock (codes : List Int) : List StatusCode :=
  codes.dedup.map (fun c => ⟨c, codes.count c⟩)

/-- The error entries appended by one call of `printErrors`: one entry
per distinct key of the map, paired with its count. -/
def errorsBlock (errs : List String) : List Error :=
  errs.dedup.map (fun e => ⟨e, errs.count e⟩)

/-- Mirrors `Report.printLatencies` (the mutation of `r.Percentiales`;
the printing itself is I/O and out of scope): appends the computed
percentile entries. -/
def Report.printLatencies (r : Report) : Report :=
  { r with Percentiales := r.Percentiales ++ printLatenciesBlock r.Lats }

/-- Mirrors `Report.printHistogram`: appends the computed histogram
entries; `none` models the non-terminating execution. -/
def Report.printHistogram (r : Report) : Option Report :=
  (printHistogramBlock r.Fastest r.Slowest r.Lats).map
    (fun bs => { r with Histogram := r.Histogram ++ bs })

/-- Mirrors `Report.printStatusCodes`: appends one entry per distinct
status code of `statusCodeDist`. -/
def Report.printStatusCodes (r : Report) : Report :=
  { r with StatusCodes := r.StatusCodes ++ statusBlock r.statusCodeDist }

/-- Mirrors `Report.printErrors` (the on-demand error accessor, not
called by `finalize`): appends one entry per distinct error text of
`errorDist`. -/
def Report.printErrors (r : Report) : Report :=
  { r with Errors := r.Errors ++ errorsBlock r.errorDist }

/-- Mirrors `Report.finalize`: drain the queued records, compute `RPS`
and `Average`, sort the latencies, return early when no success was
drained, otherwise set `Fastest`/`Slowest` and run `printStatusCodes`
(twice, as in the source), `printLatencies` and `printHistogram`. -/
def Report.finalize (r : Report) (queued : List result) : Option Report :=
  let r1 := queued.foldl Report.drain r
  let r2 := { r1 with
      RPS := fdiv (r1.Lats.length : ℚ) r1.total,
      Average := fdiv r1.AvgTotal (r1.Lats.length : ℚ),
      Lats := List.insertionSort (· ≤ ·) r1.Lats }
  if r2.Lats = [] then some r2
  else
    let r3 := { r2 with
        Fastest := r2.Lats.getD 0 0,
        Slowest := r2.Lats.getD (r2.Lats.length - 1) 0 }
    Report.printHistogram
      (Report.printLatencies (Report.printStatusCodes (Report.printStatusCodes r3)))

/-- Run the whole aggregation: a fresh report for a run of `total`
seconds, finalized over the queued records. -/
def runFinalize (queued : List result) (total : ℚ) : Option Report :=
  (newReport total).finalize queued

/-- Latencies (in ms) contributed by the successful records, in drain
order. -/
def successLats : List result → List ℚ
  | [] => []
  | q :: qs =>
    match q.err with
    | some _ => successLats qs
    | none => q.duration * 1000 :: successLats qs

/-- Status codes contributed by the successful records, in drain order. -/
def successCodes : List result → List Int
  | [] => []
  | q :: qs =>
    match q.err with
    | some _ => successCodes qs
    | none => q.statusCode :: successCodes qs

/-- Number of successful (non-error) records. -/
def successCount : List result → Nat
  | [] => 0
  | q :: qs =>
    match q.err with
    | some _ => successCount qs
    | none => successCount qs + 1

/-- Sum of the success durations, in seconds (the value accumulated in
`AvgTotal`). -/
def durSum : List result → ℚ
  | [] => 0
  | q :: qs =>
    match q.err with
    | some _ => durSum qs
    | none => q.duration + durSum qs

/-- Bytes accumulated into `SizeTotal` (positive content lengths of
successful records). -/
def sizeSum : List result → Int
  | [] => 0
  | q :: qs =>
    match q.err with
    | some _ => sizeSum qs
    | none => (if 0 < q.contentLength then q.contentLength else 0) + sizeSum qs

/-- Error texts of the failed records, in drain order. -/
def errTexts : List result → List String
  | [] => []
  | q :: qs =>
    match q.err with
    | some e => e :: errTexts qs
    | none => errTexts qs

/-! Declarative (spec-side) description of the percentile scan, used to
settle the claim about which latency serves each target: the value
recorded for a target `p` is the latency at the smallest index, at or
after the scan position left by the previous target, whose rank meets or
exceeds `p`. -/

/-- The ascending index list `[i, i+1, ..., i+d-1]`. -/
def idxFrom : Nat → Nat → List Nat
  | _, 0 => []
  | i, d + 1 => i :: idxFrom (i + 1) d

/-- Smallest index `k` with `i ≤ k < len` whose rank meets or exceeds
`p` (the first hit of an ascending search). -/
def seek (n len p i : Nat) : Option Nat :=
  (idxFrom i (len - i)).find? (fun k => decide (p ≤ rank n k))

/-- Declarative percentile selection: each target `p` receives the
latency at the smallest index, at or after the resume position `i`
(one past the index used for the previous target), whose rank meets or
exceeds `p`; targets stop as soon as one cannot be served. -/
def specSelect (n len : Nat) (l : List ℚ) : List Nat → Nat → List (Nat × ℚ)
  | [], _ => []
  | p :: ps, i =>
    match seek n len p i with
    | some k => (p, l.getD k 0) :: specSelect n len l ps (k + 1)
    | none => []

/-- Declarative description of `printLatenciesBlock`: the sequential
selection above, with values that are not strictly positive omitted. -/
def specPrintLatencies (l : List ℚ) : List Percential :=
  (specSelect l.length l.length l pctls 0).filterMap
    (fun pv => if 0 < pv.2 then some ⟨pv.1, pv.2⟩ else none)

/-! Basic facts about the drain loop. -/

lemma successLats_length (qs : List result) :
    (successLats qs).length = successCount qs := by
  induction qs with
  | nil => rfl
  | cons q qs ih =>
    obtain ⟨e, d, sc, cl⟩ := q
    cases e <;> simp [successLats, successCount, ih]

lemma successCount_zero (qs : List result) (h : successCount qs = 0) :
    successLats qs = [] ∧ durSum qs = 0 ∧ successCodes qs = [] := by
  induction qs with
  | nil => exact ⟨rfl, rfl, rfl⟩
  | cons q qs ih =>
    obtain ⟨e, d, sc, cl⟩ := q
    cases e with
    | none => simp [successCount] at h
    | some e =>
      simp only [successCount] at h
      obtain ⟨h1, h2, h3⟩ := ih h
      exact ⟨h1, h2, h3⟩

lemma foldl_drain (qs : List result) : ∀ r : Report,
    qs.foldl Report.drain r =
      { r with
        Lats := r.Lats ++ successLats qs,
        AvgTotal := r.AvgTotal + durSum qs,
        statusCodeDist := r.statusCodeDist ++ successCodes qs,
        errorDist := r.errorDist ++ errTexts qs,
        SizeTotal := r.SizeTotal + sizeSum qs } := by
  induction qs with
  | nil =>
    intro r
    simp [successLats, durSum, successCodes, errTexts, sizeSum]
  | cons q qs ih =>
    intro r
    obtain ⟨e, d, sc, cl⟩ := q
    cases e with
    | none =>
      rw [List.foldl_cons, ih]
      simp only [Report.drain, successLats, durSum, successCodes, errTexts, sizeSum]
      simp [List.append_assoc, add_assoc]
      split <;> omega
    | some e =>
      rw [List.foldl_cons, ih]
      simp only [Report.drain, successLats, durSum, successCodes, errTexts, sizeSum]
      simp [List.append_assoc]

/-! Facts about the histogram counting loop. -/

lemma incAt_length : ∀ (cs : List Nat) (i : Nat), (incAt cs i).length = cs.length := by
  intro cs
  induction cs with
  | nil => intro i; rfl
  | cons c cs ih =>
    intro i
    cases i with
    | zero => rfl
    | succ i => simp [incAt, ih]

lemma incAt_sum : ∀ (cs : List Nat) (i : Nat), i < cs.length →
    (incAt cs i).sum = cs.sum + 1 := by
  intro cs
  induction cs with
  | nil => intro i h; simp at h
  | cons c cs ih =>
    intro i h
    cases i with
    | zero => simp [incAt]; omega
    | succ i =>
      simp only [incAt, List.sum_cons]
      rw [ih i (by simpa using h)]
      omega

lemma histLoop_run (buckets : List ℚ) :
    ∀ (fuel : Nat) (lats : List ℚ) (bi : Nat) (counts : List Nat),
      bi < buckets.length →
      counts.length = buckets.length →
      (∀ x ∈ lats, x ≤ buckets.getD (buckets.length - 1) 0) →
      lats.length + (buckets.length - bi) ≤ fuel →
      ∃ cs, histLoop buckets fuel lats bi counts = some cs ∧
        cs.sum = counts.sum + lats.length ∧ cs.length = counts.length := by
  intro fuel
  induction fuel with
  | zero =>
    intro lats bi counts hbi _ _ hfuel
    exfalso
    omega
  | succ fuel ih =>
    intro lats bi counts hbi hlen hle hfuel
    cases lats with
    | nil => exact ⟨counts, rfl, by simp, rfl⟩
    | cons x rest =>
      by_cases hx : x ≤ buckets.getD bi 0
      · obtain ⟨cs, h1, h2, h3⟩ :=
          ih rest bi (incAt counts bi) hbi (by rw [incAt_length]; exact hlen)
            (fun y hy => hle y (List.mem_cons_of_mem _ hy))
            (by simp only [List.length_cons] at hfuel; omega)
        refine ⟨cs, ?_, ?_, ?_⟩
        · show (if x ≤ buckets.getD bi 0 then histLoop buckets fuel rest bi (incAt counts bi)
            else if bi < buckets.length - 1 then histLoop buckets fuel (x :: rest) (bi + 1) counts
            else none) = some cs
          rw [if_pos hx, h1]
        · rw [h2, incAt_sum counts bi (hlen ▸ hbi)]
          simp only [List.length_cons]
          omega
        · rw [h3, incAt_length]
      · by_cases hbi' : bi < buckets.length - 1
        · obtain ⟨cs, h1, h2, h3⟩ :=
            ih (x :: rest) (bi + 1) counts (by omega) hlen hle
              (by simp only [List.length_cons] at hfuel ⊢; omega)
          refine ⟨cs, ?_, h2, h3⟩
          show (if x ≤ buckets.getD bi 0 then histLoop buckets fuel rest bi (incAt counts bi)
            else if bi < buckets.length - 1 then histLoop buckets fuel (x :: rest) (bi + 1) counts
            else none) = some cs
          rw [if_neg hx, if_pos hbi', h1]
        · exfalso
          have hbieq : bi = buckets.length - 1 := by omega
          exact hx (hbieq ▸ hle x (List.mem_cons_self _ _))

lemma histBuckets_length (f s : ℚ) : (histBuckets f s).length = 11 := by
  rw [histBuckets, List.length_append, List.length_map, List.length_range]
  rfl

lemma histBuckets_getD_last (f s : ℚ) :
    (histBuckets f s).getD ((histBuckets f s).length - 1) 0 = s := by
  have hlen :
      ((List.range 10).map (fun i : ℕ => f + (s - f) / 10 * (i : ℚ))).length = 10 := by
    rw [List.length_map, List.length_range]
  rw [histBuckets_length, histBuckets,
    List.getD_append_right _ _ _ _ (le_of_eq hlen), hlen]
  rfl

lemma sorted_le_getD_last : ∀ (l : List ℚ), l.Sorted (· ≤ ·) →
    ∀ x ∈ l, x ≤ l.getD (l.length - 1) 0 := by
  intro l
  induction l with
  | nil => intro _ x hx; simp at hx
  | cons a l ih =>
    intro hs x hx
    rw [List.sorted_cons] at hs
    cases l with
    | nil =>
      simp at hx
      simp [hx]
    | cons b t =>
      have hlen : (a :: b :: t).length - 1 = ((b :: t).length - 1) + 1 := by
        simp
      rw [hlen, List.getD_cons_succ]
      rcases List.mem_cons.mp hx with rfl | hx'
      · have hmem : (b :: t).getD ((b :: t).length - 1) 0 ∈ b :: t := by
          rw [List.getD_eq_getElem _ _ (by simp)]
          exact List.getElem_mem _
        exact hs.1 _ hmem
      · exact ih hs.2 x hx'

lemma printHistogramBlock_some (f s : ℚ) (l : List ℚ) (h : ∀ x ∈ l, x ≤ s) :
    ∃ bs, printHistogramBlock f s l = some bs ∧
      bs.map Bucket.Bucket = histBuckets f s ∧
      (bs.map Bucket.Count).sum = l.length ∧
      bs.length = 11 := by
  obtain ⟨cs, h1, h2, h3⟩ :=
    histLoop_run (histBuckets f s) (l.length + (histBuckets f s).length + 1) l 0
      (List.replicate (histBuckets f s).length 0)
      (by rw [histBuckets_length]; omega)
      (by simp)
      (by rw [histBuckets_getD_last]; exact h)
      (by omega)
  have hcs : cs.length = (histBuckets f s).length := by simpa using h3
  refine ⟨((histBuckets f s).zip cs).map (fun bc => ⟨bc.1, bc.2⟩), ?_, ?_, ?_, ?_⟩
  · simp only [printHistogramBlock, h1, Option.map_some']
  · rw [List.map_map]
    have hfst : (Bucket.Bucket ∘ fun bc : ℚ × Nat => (⟨bc.1, bc.2⟩ : Bucket)) = Prod.fst := rfl
    rw [hfst, List.map_fst_zip _ _ (le_of_eq hcs.symm)]
  · rw [List.map_map]
    have hsnd : (Bucket.Count ∘ fun bc : ℚ × Nat => (⟨bc.1, bc.2⟩ : Bucket)) = Prod.snd := rfl
    rw [hsnd, List.map_snd_zip _ _ (le_of_eq hcs)]
    rw [h2]
    simp
  · rw [List.length_map, List.length_zip, hcs, histBuckets_length]
    simp

/-! Characterization of the two paths through `finalize`. -/

/-- The sorted latency list produced by `finalize` (the state of `r.Lats`
after `sort.Float64s`). -/
def sortedLats (qs : List result) : List ℚ := List.insertionSort (· ≤ ·) (successLats qs)

/-- The value assigned to `Fastest` (`r.Lats[0]` of the sorted list). -/
def fastestOf (qs : List result) : ℚ := (sortedLats qs).getD 0 0

/-- The value assigned to `Slowest` (`r.Lats[len(r.Lats)-1]` of the
sorted list). -/
def slowestOf (qs : List result) : ℚ :=
  (sortedLats qs).getD ((sortedLats qs).length - 1) 0

lemma sortedLats_length (qs : List result) :
    (sortedLats qs).length = successCount qs := by
  rw [sortedLats, (List.perm_insertionSort _ _).length_eq, successLats_length]

lemma runFinalize_empty (qs : List result) (t : ℚ) (h : successCount qs = 0) :
    runFinalize qs t = some
      { AvgTotal := 0, Fastest := 0, Slowest := 0,
        Average := none, RPS := fdiv 0 t, TotalDuration := 0,
        Errors := [], StatusCodes := [], Percentiales := [], Histogram := [],
        Lats := [], SizeTotal := sizeSum qs, errorDist := errTexts qs,
        statusCodeDist := [], total := t } := by
  obtain ⟨h1, h2, h3⟩ := successCount_zero qs h
  simp only [runFinalize, Report.finalize, foldl_drain, newReport]
  rw [h1, h2, h3]
  simp [fdiv]

lemma runFinalize_pos (qs : List result) (t : ℚ) (h : 0 < successCount qs) :
    ∃ bs, printHistogramBlock (fastestOf qs) (slowestOf qs) (sortedLats qs) = some bs ∧
    runFinalize qs t = some
      { AvgTotal := durSum qs, Fastest := fastestOf qs, Slowest := slowestOf qs,
        Average := fdiv (durSum qs) (successCount qs : ℚ),
        RPS := fdiv (successCount qs : ℚ) t, TotalDuration := 0,
        Errors := [],
        StatusCodes := statusBlock (successCodes qs) ++ statusBlock (successCodes qs),
        Percentiales := printLatenciesBlock (sortedLats qs),
        Histogram := bs,
        Lats := sortedLats qs, SizeTotal := sizeSum qs,
        errorDist := errTexts qs, statusCodeDist := successCodes qs, total := t } := by
  have hne : sortedLats qs ≠ [] := by
    have := sortedLats_length qs
    intro hnil
    rw [hnil] at this
    simp at this
    omega
  have hsorted : (sortedLats qs).Sorted (· ≤ ·) := List.sorted_insertionSort _ _
  have hle : ∀ x ∈ sortedLats qs, x ≤ slowestOf qs :=
    sorted_le_getD_last _ hsorted
  obtain ⟨bs, hbs, hmap, hsum, hlen⟩ :=
    printHistogramBlock_some (fastestOf qs) (slowestOf qs) _ hle
  refine ⟨bs, hbs, ?_⟩
  simp only [runFinalize, Report.finalize, foldl_drain, newReport]
  simp only [List.nil_append, zero_add]
  have hsl : List.insertionSort (fun x1 x2 => x1 ≤ x2) (successLats qs) = sortedLats qs := rfl
  have hf : (sortedLats qs).getD 0 0 = fastestOf qs := rfl
  have hs : (sortedLats qs).getD ((sortedLats qs).length - 1) 0 = slowestOf qs := rfl
  simp only [hsl, hf, hs]
  simp only [successLats_length]
  rw [if_neg hne]
  simp only [Report.printStatusCodes, Report.printLatencies, Report.printHistogram]
  rw [hbs]
  simp only [Option.map_some', List.nil_append]

/-! Claims about the distributions, the empty run, the average and the
request rate. -/


lemma mem_statusBlock (codes : List Int) (c : Int) (n : Nat) :
    StatusCode.mk c n ∈ statusBlock codes ↔ c ∈ codes ∧ n = codes.count c := by
  simp only [statusBlock, List.mem_map, StatusCode.mk.injEq, List.mem_dedup]
  constructor
  · rintro ⟨a, ha, rfl, rfl⟩
    exact ⟨ha, rfl⟩
  · rintro ⟨hc, rfl⟩
    exact ⟨c, hc, rfl, rfl⟩

lemma mem_errorsBlock (errs : List String) (e : String) (n : Nat) :
    Error.mk e n ∈ errorsBlock errs ↔ e ∈ errs ∧ n = errs.count e := by
  simp only [errorsBlock, List.mem_map, Error.mk.injEq, List.mem_dedup]
  constructor
  · rintro ⟨a, ha, rfl, rfl⟩
    exact ⟨ha, rfl⟩
  · rintro ⟨hc, rfl⟩
    exact ⟨e, hc, rfl, rfl⟩

/-- Claim C1: for every drained record set, the status-code distribution
produced by `finalize` contains, as a set, exactly one entry per distinct
status code observed among successful records, with count equal to the
number of occurrences: a pair `(c, n)` is an entry of `StatusCodes` iff
`c` occurs among the success codes and `n` is its occurrence count.
(`finalize` appends the per-code entries twice, so the list holds each
entry in duplicate; compared by set equality, as the claim states, the
distribution is exactly the expected one.) -/
theorem c1_status_code_distribution (qs : List result) (t : ℚ) (rep : Report)
    (h : runFinalize qs t = some rep) (c : Int) (n : Nat) :
    StatusCode.mk c n ∈ rep.StatusCodes ↔
      c ∈ successCodes qs ∧ n = (successCodes qs).count c := by
  by_cases hz : successCount qs = 0
  · obtain ⟨h1, h2, h3⟩ := successCount_zero qs hz
    rw [runFinalize_empty qs t hz] at h
    injection h with h
    subst h
    simp [h3]
  · obtain ⟨bs, hbs, hrun⟩ := runFinalize_pos qs t (Nat.pos_of_ne_zero hz)
    rw [hrun] at h
    injection h with h
    subst h
    simp only [List.mem_append, mem_statusBlock, or_self]

/-- Claim C1, witness: codes `[200, 200, 404, 200, 500]` yield an entry
`(200, 3)`. -/
theorem c1_witness :
    ∃ rep, runFinalize [⟨none, 1, 200, 0⟩, ⟨none, 1, 200, 0⟩, ⟨none, 1, 404, 0⟩,
        ⟨none, 1, 200, 0⟩, ⟨none, 1, 500, 0⟩] 1 = some rep ∧
      StatusCode.mk 200 3 ∈ rep.StatusCodes := by
  obtain ⟨bs, hbs, hrun⟩ :=
    runFinalize_pos [⟨none, 1, 200, 0⟩, ⟨none, 1, 200, 0⟩, ⟨none, 1, 404, 0⟩,
      ⟨none, 1, 200, 0⟩, ⟨none, 1, 500, 0⟩] 1 (by decide)
  exact ⟨_, hrun, (c1_status_code_distribution _ 1 _ hrun 200 3).mpr (by decide)⟩

/-- Claim C2, counterexample: with zero successes and a 2-second run,
`finalize` does compute requests-per-second, and its value is the plain
number `0`, not the non-finite "no data" sentinel (`none`) the claim
requires. -/
theorem c2_counterexample :
    (runFinalize [{ err := some "boom", duration := 0, statusCode := 0, contentLength := 0 }] 2).map
        Report.RPS = some (some 0)
    ∧ some (0 : ℚ) ≠ (none : Option ℚ) := by
  constructor
  · rw [runFinalize_empty _ 2 (by decide)]
    norm_num [fdiv]
  · simp

/-- Claim C2, amended: if zero successful records are drained,
`finalize` returns early with an empty latency list, empty
percentile/histogram/status lists and zero `Fastest`/`Slowest`; the
average is the non-finite sentinel (`0/0`, NaN); but requests-per-second
is still computed, as `0 / totalDurationSeconds`, which is the plain
number `0` for a positive duration (non-finite only when the duration is
zero); `finalize` never crashes in this case. -/
theorem c2_amended (qs : List result) (t : ℚ) (h : successCount qs = 0) :
    ∃ rep, runFinalize qs t = some rep ∧
      rep.Lats = [] ∧ rep.Percentiales = [] ∧ rep.Histogram = [] ∧
      rep.StatusCodes = [] ∧ rep.Fastest = 0 ∧ rep.Slowest = 0 ∧
      rep.Average = none ∧ rep.RPS = fdiv 0 t ∧ (0 < t → rep.RPS = some 0) := by
  refine ⟨_, runFinalize_empty qs t h, rfl, rfl, rfl, rfl, rfl, rfl, rfl, rfl, ?_⟩
  intro ht
  norm_num [fdiv, ne_of_gt ht]

/-- Claim C2, witness: one failed record, 2-second run. -/
theorem c2_witness :
    successCount [({ err := some "boom", duration := 0, statusCode := 0, contentLength := 0 } : result)] = 0
    ∧ ∃ rep, runFinalize [({ err := some "boom", duration := 0, statusCode := 0, contentLength := 0 } : result)] 2 = some rep ∧
      rep.Lats = [] ∧ rep.Percentiales = [] ∧ rep.Histogram = [] ∧
      rep.StatusCodes = [] ∧ rep.Fastest = 0 ∧ rep.Slowest = 0 ∧
      rep.Average = none ∧ rep.RPS = fdiv 0 2 ∧ ((0 : ℚ) < 2 → rep.RPS = some 0) :=
  ⟨by decide, c2_amended _ 2 (by decide)⟩

/-- Claim C3: evaluation at the failing input.  One successful record of
duration 2 seconds (total run 1s) produces `Lats = [2000]` (milliseconds)
but `Average = 2` (seconds): the average is the millisecond mean divided
by 1000, because `AvgTotal` accumulates `duration.Seconds()` while the
latency list stores `duration.Seconds()*1000`.  The claim that `Average`
is in milliseconds, equal to the mean of the latency list, is false of
the code; the spec's declared `averageMs` (same unit as
`fastestMs`/`slowestMs`) is the evident intent. -/
theorem c3_average_in_seconds :
    ∃ rep, runFinalize [({ err := none, duration := 2, statusCode := 200, contentLength := 0 } : result)] 1
        = some rep ∧
      rep.Lats = [2000] ∧ rep.Average = some 2 ∧ rep.Fastest = 2000 ∧ rep.Slowest = 2000 := by
  obtain ⟨bs, hbs, hrun⟩ :=
    runFinalize_pos [({ err := none, duration := 2, statusCode := 200, contentLength := 0 } : result)] 1
      (by decide)
  have hsl : sortedLats [({ err := none, duration := 2, statusCode := 200, contentLength := 0 } : result)]
      = [2000] := by
    norm_num [sortedLats, successLats, List.insertionSort, List.orderedInsert]
  refine ⟨_, hrun, hsl, ?_, ?_, ?_⟩
  · norm_num [durSum, fdiv, successCount]
  · simp only [fastestOf, hsl]
    rfl
  · simp only [slowestOf, hsl]
    rfl

/-- Claim C8: for any positive total run duration and positive count of
successful records, `finalize` reports
`RPS = successCount / totalDurationSeconds`, where `successCount` counts
only non-error records. -/
theorem c8_requests_per_second (qs : List result) (t : ℚ) (ht : 0 < t)
    (hc : 0 < successCount qs) :
    ∃ rep, runFinalize qs t = some rep ∧
      rep.RPS = some ((successCount qs : ℚ) / t) := by
  obtain ⟨bs, hbs, hrun⟩ := runFinalize_pos qs t hc
  refine ⟨_, hrun, ?_⟩
  simp [fdiv, ne_of_gt ht]

/-- Claim C8, witness: one success in a 2-second run. -/
theorem c8_witness :
    (0 : ℚ) < 2
    ∧ 0 < successCount [({ err := none, duration := 1, statusCode := 200, contentLength := 0 } : result)]
    ∧ ∃ rep, runFinalize [({ err := none, duration := 1, statusCode := 200, contentLength := 0 } : result)] 2
          = some rep ∧
        rep.RPS = some ((successCount [({ err := none, duration := 1, statusCode := 200, contentLength := 0 } : result)] : ℚ) / 2) :=
  ⟨by norm_num, by decide,
    c8_requests_per_second [({ err := none, duration := 1, statusCode := 200, contentLength := 0 } : result)] 2
      (by norm_num) (by decide)⟩

/-- Claim C9: in the distribution produced by the on-demand
`printErrors` accessor, failure records with identical error text
collapse into a single entry whose count is the number of such failures:
a pair `(e, n)` is an entry iff `e` occurs among the drained error texts
and `n` is its occurrence count. -/
theorem c9_error_distribution (qs : List result) (t : ℚ) (rep : Report)
    (h : runFinalize qs t = some rep) (e : String) (n : Nat) :
    Error.mk e n ∈ (rep.printErrors).Errors ↔
      e ∈ errTexts qs ∧ n = (errTexts qs).count e := by
  by_cases hz : successCount qs = 0
  · rw [runFinalize_empty qs t hz] at h
    injection h with h
    subst h
    simp only [Report.printErrors, List.nil_append]
    exact mem_errorsBlock _ _ _
  · obtain ⟨bs, hbs, hrun⟩ := runFinalize_pos qs t (Nat.pos_of_ne_zero hz)
    rw [hrun] at h
    injection h with h
    subst h
    simp only [Report.printErrors, List.nil_append]
    exact mem_errorsBlock _ _ _

/-- Claim C9, witness: two failures with the same text yield the entry
`("boom", 2)`. -/
theorem c9_witness :
    ∃ rep, runFinalize [⟨some "boom", 0, 0, 0⟩, ⟨some "boom", 0, 0, 0⟩] 1 = some rep ∧
      Error.mk "boom" 2 ∈ (rep.printErrors).Errors := by
  have hrun := runFinalize_empty [⟨some "boom", 0, 0, 0⟩, ⟨some "boom", 0, 0, 0⟩] 1 (by decide)
  exact ⟨_, hrun, (c9_error_distribution _ 1 _ hrun "boom" 2).mpr (by decide)⟩

/-! The percentile scan: equivalence with its declarative description. -/


lemma seek_of_ge (n p : Nat) {len i : Nat} (h : len ≤ i) : seek n len p i = none := by
  rw [seek, Nat.sub_eq_zero_of_le h]
  rfl

lemma seek_hit (n p : Nat) {len i : Nat} (h : i < len) (hp : p ≤ rank n i) :
    seek n len p i = some i := by
  rw [seek, show len - i = (len - (i + 1)) + 1 from by omega]
  exact List.find?_cons_of_pos _ (decide_eq_true hp)

lemma seek_miss (n p : Nat) {len i : Nat} (h : i < len) (hp : ¬ p ≤ rank n i) :
    seek n len p i = seek n len p (i + 1) := by
  rw [seek, show len - i = (len - (i + 1)) + 1 from by omega]
  rw [show idxFrom i (len - (i + 1) + 1) = i :: idxFrom (i + 1) (len - (i + 1)) from rfl]
  rw [List.find?_cons_of_neg _ (by simpa using hp)]
  rfl

lemma pctlLoop_eq_specSelect (l : List ℚ) :
    ∀ (ps : List Nat) (i : Nat),
      pctlLoop l.length i (l.drop i) ps = specSelect l.length l.length l ps i := by
  intro ps
  induction ps with
  | nil =>
    intro i
    cases h : l.drop i <;> simp [pctlLoop, specSelect]
  | cons p ps ih =>
    have key : ∀ (d i : Nat), l.length - i ≤ d →
        pctlLoop l.length i (l.drop i) (p :: ps)
          = specSelect l.length l.length l (p :: ps) i := by
      intro d
      induction d with
      | zero =>
        intro i hle
        have hi : l.length ≤ i := by omega
        rw [List.drop_eq_nil_of_le hi]
        simp [pctlLoop, specSelect, seek_of_ge _ _ hi]
      | succ d ihd =>
        intro i hle
        by_cases hi : i < l.length
        · rw [List.drop_eq_getElem_cons hi]
          by_cases hp : p ≤ rank l.length i
          · rw [show pctlLoop l.length i (l[i] :: l.drop (i + 1)) (p :: ps)
                = if p ≤ rank l.length i then
                    (p, l[i]) :: pctlLoop l.length (i + 1) (l.drop (i + 1)) ps
                  else pctlLoop l.length (i + 1) (l.drop (i + 1)) (p :: ps) from rfl]
            rw [if_pos hp, ih (i + 1)]
            rw [specSelect, seek_hit _ _ hi hp]
            show (p, l[i]) :: specSelect l.length l.length l ps (i + 1)
              = (p, l.getD i 0) :: specSelect l.length l.length l ps (i + 1)
            rw [List.getD_eq_getElem _ _ hi]
          · rw [show pctlLoop l.length i (l[i] :: l.drop (i + 1)) (p :: ps)
                = if p ≤ rank l.length i then
                    (p, l[i]) :: pctlLoop l.length (i + 1) (l.drop (i + 1)) ps
                  else pctlLoop l.length (i + 1) (l.drop (i + 1)) (p :: ps) from rfl]
            rw [if_neg hp, ihd (i + 1) (by omega)]
            rw [specSelect, specSelect, seek_miss _ _ hi hp]
        · have hi' : l.length ≤ i := by omega
          rw [List.drop_eq_nil_of_le hi']
          simp [pctlLoop, specSelect, seek_of_ge _ _ hi']
    intro i
    exact key (l.length - i) i le_rfl

/-- Claim C4, amended: the scan serves at most one target per index.  For
each target `p`, taken in order, the recorded value is the latency at the
smallest index, at or after the position one past the index used for the
previous target, whose 0-based rank `floor(i*100/N)` meets or exceeds
`p`; recorded values that are not strictly positive are omitted from the
output.  (Hence for `[0,0,0,1,2,3,4,5,6,7]` the 10th entry, value 0, is
absent while the 25th is present with value 1.) -/
theorem c4_amended (l : List ℚ) : printLatenciesBlock l = specPrintLatencies l := by
  rw [printLatenciesBlock, specPrintLatencies]
  rw [← pctlLoop_eq_specSelect l pctls 0, List.drop_zero]

/-- Claim C4, counterexample: for `[0,0,0,1,2,3,4,5,6,7]` the 25th
percentile entry is present with value 1 (the claim says it is absent),
and for `[1,2]` the output is only `(10, 2)`, although the smallest
latency whose rank meets 25 (and 50) is 2, so the claimed
"smallest latency whose rank meets or exceeds p" rule fails as well. -/
theorem c4_counterexample :
    printLatenciesBlock [0, 0, 0, 1, 2, 3, 4, 5, 6, 7]
        = [⟨25, 1⟩, ⟨50, 3⟩, ⟨75, 6⟩, ⟨90, 7⟩]
    ∧ printLatenciesBlock [1, 2] = [⟨10, 2⟩] := by
  constructor <;> decide

/-! Histogram claims: bucket boundaries, count conservation and the
degenerate spread. -/


/-- Claim C5: for every non-empty sorted latency list with
`fastest < slowest` (fastest and slowest being the first and last
elements), the histogram succeeds and has 11 boundary values —
`fastest + i*(slowest-fastest)/10` for `i` in 0..9 plus `slowest` itself
as the last boundary — and the bucket counts sum exactly to the number
of records. -/
theorem c5_histogram (l : List ℚ) (hne : l ≠ []) (hs : l.Sorted (· ≤ ·))
    (hfs : l.getD 0 0 < l.getD (l.length - 1) 0) :
    ∃ bs, printHistogramBlock (l.getD 0 0) (l.getD (l.length - 1) 0) l = some bs ∧
      bs.length = 11 ∧
      (∀ i : ℕ, i < 10 → (bs.getD i ⟨0, 0⟩).Bucket
        = l.getD 0 0 + (i : ℚ) * ((l.getD (l.length - 1) 0 - l.getD 0 0) / 10)) ∧
      (bs.getD 10 ⟨0, 0⟩).Bucket = l.getD (l.length - 1) 0 ∧
      (bs.map Bucket.Count).sum = l.length := by
  obtain ⟨bs, hbs, hmap, hsum, hlen⟩ :=
    printHistogramBlock_some (l.getD 0 0) (l.getD (l.length - 1) 0) l
      (sorted_le_getD_last l hs)
  refine ⟨bs, hbs, hlen, ?_, ?_, hsum⟩
  · intro i hi
    have h1 : (bs.getD i ⟨0, 0⟩).Bucket = (bs.map Bucket.Bucket).getD i 0 :=
      (List.getD_map bs ⟨0, 0⟩ Bucket.Bucket).symm
    rw [h1, hmap, histBuckets]
    rw [List.getD_append _ _ _ _ (by rw [List.length_map, List.length_range]; exact hi)]
    rw [List.getD_eq_getElem _ _ (by rw [List.length_map, List.length_range]; exact hi)]
    rw [List.getElem_map, List.getElem_range]
    ring
  · have h1 : (bs.getD 10 ⟨0, 0⟩).Bucket = (bs.map Bucket.Bucket).getD 10 0 :=
      (List.getD_map bs ⟨0, 0⟩ Bucket.Bucket).symm
    rw [h1, hmap]
    have := histBuckets_getD_last (l.getD 0 0) (l.getD (l.length - 1) 0)
    rwa [histBuckets_length] at this

/-- Claim C5, witness: latencies `[1,...,10]`. -/
theorem c5_witness :
    ∃ bs, printHistogramBlock (([1, 2, 3, 4, 5, 6, 7, 8, 9, 10] : List ℚ).getD 0 0)
        (([1, 2, 3, 4, 5, 6, 7, 8, 9, 10] : List ℚ).getD
          (([1, 2, 3, 4, 5, 6, 7, 8, 9, 10] : List ℚ).length - 1) 0)
        [1, 2, 3, 4, 5, 6, 7, 8, 9, 10] = some bs ∧
      bs.length = 11 ∧
      (∀ i : ℕ, i < 10 → (bs.getD i ⟨0, 0⟩).Bucket
        = ([1, 2, 3, 4, 5, 6, 7, 8, 9, 10] : List ℚ).getD 0 0
          + (i : ℚ) * ((([1, 2, 3, 4, 5, 6, 7, 8, 9, 10] : List ℚ).getD
              (([1, 2, 3, 4, 5, 6, 7, 8, 9, 10] : List ℚ).length - 1) 0
            - ([1, 2, 3, 4, 5, 6, 7, 8, 9, 10] : List ℚ).getD 0 0) / 10)) ∧
      (bs.getD 10 ⟨0, 0⟩).Bucket
        = ([1, 2, 3, 4, 5, 6, 7, 8, 9, 10] : List ℚ).getD
            (([1, 2, 3, 4, 5, 6, 7, 8, 9, 10] : List ℚ).length - 1) 0 ∧
      (bs.map Bucket.Count).sum = ([1, 2, 3, 4, 5, 6, 7, 8, 9, 10] : List ℚ).length :=
  c5_histogram [1, 2, 3, 4, 5, 6, 7, 8, 9, 10] (by decide) (by decide) (by decide)

lemma histBuckets_self (c : ℚ) : histBuckets c c = List.replicate 10 c ++ [c] := by
  rw [histBuckets]
  have : (fun i : ℕ => c + (c - c) / 10 * (i : ℚ)) = fun _ : ℕ => c := by
    funext i
    ring
  rw [this, List.map_const', List.length_range]

lemma histLoop_replicate (b0 : ℚ) (brest : List ℚ) (c : ℚ) (hc : c ≤ b0) :
    ∀ (n fuel : Nat) (c0 : Nat) (rest : List Nat), n < fuel →
      histLoop (b0 :: brest) fuel (List.replicate n c) 0 (c0 :: rest)
        = some ((c0 + n) :: rest) := by
  intro n
  induction n with
  | zero =>
    intro fuel c0 rest hf
    cases fuel with
    | zero => omega
    | succ fuel => rfl
  | succ n ih =>
    intro fuel c0 rest hf
    cases fuel with
    | zero => omega
    | succ fuel =>
      rw [List.replicate_succ]
      rw [show histLoop (b0 :: brest) (fuel + 1) (c :: List.replicate n c) 0 (c0 :: rest)
          = if c ≤ (b0 :: brest).getD 0 0 then
              histLoop (b0 :: brest) fuel (List.replicate n c) 0 (incAt (c0 :: rest) 0)
            else if 0 < (b0 :: brest).length - 1 then
              histLoop (b0 :: brest) fuel (c :: List.replicate n c) 1 (c0 :: rest)
            else none from rfl]
      rw [if_pos (by simpa using hc)]
      rw [show incAt (c0 :: rest) 0 = (c0 + 1) :: rest from rfl]
      rw [ih fuel (c0 + 1) rest (by omega)]
      have : c0 + 1 + n = c0 + (n + 1) := by omega
      rw [this]

/-- Claim C6: in the degenerate case where all latencies are identical
(`fastest = slowest = c`), the histogram computation terminates (returns
`some`, never the non-terminating `none`) and places the full count at
the single collapsed boundary: the counts are `n` at bucket 0 and zero
everywhere else, and every boundary equals `c`. -/
theorem c6_degenerate (n : Nat) (c : ℚ) (hn : 0 < n) :
    ∃ bs, printHistogramBlock c c (List.replicate n c) = some bs ∧
      bs.map Bucket.Count = n :: List.replicate 10 0 ∧
      ∀ b ∈ bs, b.Bucket = c := by
  have hbuckets : histBuckets c c = c :: (List.replicate 9 c ++ [c]) := by
    rw [histBuckets_self]
    rfl
  have hinit : List.replicate (histBuckets c c).length 0 = (0 : ℕ) :: List.replicate 10 0 := by
    rw [histBuckets_length]
    rfl
  have hloop := histLoop_replicate c (List.replicate 9 c ++ [c]) c le_rfl n
    ((List.replicate n c).length + (histBuckets c c).length + 1) 0 (List.replicate 10 0)
    (by rw [histBuckets_length, List.length_replicate]; omega)
  refine ⟨((histBuckets c c).zip ((0 + n) :: List.replicate 10 0)).map (fun bc => ⟨bc.1, bc.2⟩),
    ?_, ?_, ?_⟩
  · rw [printHistogramBlock]
    rw [hinit, hbuckets]
    rw [show (List.replicate n c).length + (c :: (List.replicate 9 c ++ [c])).length + 1
        = (List.replicate n c).length + (histBuckets c c).length + 1 from by
      rw [hbuckets]]
    rw [hloop]
    rw [← hbuckets]
    rfl
  · rw [List.map_map]
    have hsnd : (Bucket.Count ∘ fun bc : ℚ × ℕ => (⟨bc.1, bc.2⟩ : Bucket)) = Prod.snd := rfl
    rw [hsnd, List.map_snd_zip _ _ (by rw [histBuckets_length]; rfl)]
    rw [Nat.zero_add]
  · intro b hb
    obtain ⟨⟨x, k⟩, hmem, rfl⟩ := List.mem_map.mp hb
    have hx : x ∈ histBuckets c c := (List.of_mem_zip hmem).1
    rw [histBuckets_self] at hx
    rcases List.mem_append.mp hx with hx | hx
    · exact List.eq_of_mem_replicate hx
    · simpa using hx

/-- Claim C6, witness: three latencies of 5ms. -/
theorem c6_witness :
    0 < 3 ∧
    ∃ bs, printHistogramBlock 5 5 (List.replicate 3 (5 : ℚ)) = some bs ∧
      bs.map Bucket.Count = 3 :: List.replicate 10 0 ∧
      ∀ b ∈ bs, b.Bucket = 5 :=
  ⟨by decide, c6_degenerate 3 5 (by decide)⟩

/-! Idempotence of the print methods, and the percentile filter. -/


/-- A report in the state `finalize` reaches just before `printLatencies`
on the run with two successful requests of 1ms and 2ms. -/
def sampleReport : Report :=
  { newReport 1 with Lats := [1, 2], Fastest := 1, Slowest := 2 }

/-- Claim C7, counterexample: invoking `printLatencies` twice on the
same finalized report (sorted latencies `[1, 2]`) does not yield the
same output as invoking it once — the method appends its entries to
`Percentiales`, so the block appears twice. -/
theorem c7_counterexample :
    sampleReport.printLatencies.printLatencies ≠ sampleReport.printLatencies := by
  decide

/-- Claim C7, amended: the percentile and histogram entry blocks are
pure functions of the sorted latency list (and of
`Fastest`/`Slowest` for the histogram), but each invocation appends its
block to the report: invoking a computation twice appends the identical
block twice rather than reproducing the output of one invocation. -/
theorem c7_amended (r : Report) :
    (r.printLatencies.printLatencies).Percentiales
        = r.Percentiales ++ printLatenciesBlock r.Lats ++ printLatenciesBlock r.Lats
    ∧ (∀ bs, printHistogramBlock r.Fastest r.Slowest r.Lats = some bs →
        (r.printHistogram).bind Report.printHistogram
          = some { r with Histogram := r.Histogram ++ bs ++ bs }) := by
  constructor
  · simp [Report.printLatencies, List.append_assoc]
  · intro bs hbs
    rw [Report.printHistogram, hbs, Option.map_some', Option.some_bind]
    rw [Report.printHistogram]
    show (printHistogramBlock r.Fastest r.Slowest r.Lats).map _ = _
    rw [hbs, Option.map_some']

/-- Claim C7, witness: the double-append equalities at the concrete
report with latencies `[1, 2]`. -/
theorem c7_witness :
    (sampleReport.printLatencies.printLatencies).Percentiales
      = sampleReport.Percentiales ++ printLatenciesBlock sampleReport.Lats
          ++ printLatenciesBlock sampleReport.Lats
    ∧ ∃ bs, printHistogramBlock sampleReport.Fastest sampleReport.Slowest sampleReport.Lats
          = some bs ∧
        (sampleReport.printHistogram).bind Report.printHistogram
          = some { sampleReport with Histogram := sampleReport.Histogram ++ bs ++ bs } := by
  refine ⟨(c7_amended sampleReport).1, ?_⟩
  obtain ⟨bs, hbs, -, -, -⟩ :=
    printHistogramBlock_some sampleReport.Fastest sampleReport.Slowest sampleReport.Lats
      (by decide)
  exact ⟨bs, hbs, (c7_amended sampleReport).2 bs hbs⟩

/-- Claim C10: the percentile filter keeps exactly the computed values
that are strictly positive — an entry `(p, v)` appears in the output iff
the scan recorded `(p, v)` and `0 < v`; hence a computed value that is
zero or negative (possible when a success record carries a negative
duration) is silently absent from the output list. -/
theorem c10_strict_positive_filter (l : List ℚ) (p : Nat) (v : ℚ) :
    Percential.mk p v ∈ printLatenciesBlock l ↔
      (p, v) ∈ pctlLoop l.length 0 l pctls ∧ 0 < v := by
  rw [printLatenciesBlock]
  rw [List.mem_filterMap]
  constructor
  · rintro ⟨⟨p1, v1⟩, hmem, hif⟩
    by_cases hv : 0 < v1
    · rw [if_pos hv] at hif
      injection hif with hif
      obtain ⟨rfl, rfl⟩ : p1 = p ∧ v1 = v := by
        constructor
        · exact congrArg Percential.Percent hif
        · exact congrArg Percential.Count hif
      exact ⟨hmem, hv⟩
    · rw [if_neg hv] at hif
      exact absurd hif (Option.noConfusion)
  · rintro ⟨hmem, hv⟩
    exact ⟨(p, v), hmem, by rw [if_pos hv]⟩

end Boomer
